import Mathlib

/-!
Shallow embedding of the block-tree and state-management core of the
bitcoin-canister repository, together with the balance-bootstrap tool.

Sources embedded:
* `src/blocktree.rs` — the `BlockTree` data structure and its operations.
* `canister/src/state.rs` — `State`, `ingest_stable_blocks_into_utxoset`,
  `main_chain_height`, `stable_height`.
* `bootstrap/state-builder/src/build_balances.rs` — the balances aggregator.

Components of the repository that the claims depend on but whose code is not
available (the `unstable_blocks` module, the `UtxoSet` ingestion machinery,
the serde/CBOR and Bitcoin consensus codecs) are modelled from the spec; each
such definition carries a doc comment starting with "Modelled from the spec".
-/

/-! ## Blocks

A Bitcoin block is abstract as far as `blocktree.rs` is concerned, beyond its header's
`prev_blockhash`, its hash (a deterministic digest of the header), and its
transaction list (relevant only to the consensus codec). The remaining header
fields (version, merkle root, time, bits, nonce) are abstracted into `rest`;
the hash is modelled as an injective pairing of the header fields, reflecting
the standard collision-freeness idealization of double SHA-256. -/

structure Header where
  prev_blockhash : Nat
  rest : Nat
deriving DecidableEq, Repr

structure Block where
  header : Header
  txdata : List Nat
deriving DecidableEq, Repr

/-- Rust `Block::block_hash()`: a digest of the header only (transactions are
committed to via the merkle root inside the header). -/
def Block.block_hash (b : Block) : Nat :=
  Nat.pair b.header.prev_blockhash b.header.rest

/-! ## BlockTree (src/blocktree.rs) -/

/-- Rust `BlockTree`: `root: Block` together with `children: Vec<BlockTree>`. -/
inductive BlockTree where
  | mk (root : Block) (children : List BlockTree)

def BlockTree.root : BlockTree → Block
  | .mk r _ => r

def BlockTree.children : BlockTree → List BlockTree
  | .mk _ cs => cs

/-- Rust `BlockTree::new`: a tree with the given root and no children. -/
def BlockTree.new (root : Block) : BlockTree :=
  .mk root []

/-- Rust `BlockChain`: a non-empty chain as its first block plus successors. -/
structure BlockChain where
  first : Block
  successors : List Block
deriving DecidableEq, Repr

/-- Rust `BlockChain::into_chain`: the whole chain as a list. -/
def into_chain (c : BlockChain) : List Block :=
  c.first :: c.successors

/-- Rust `BlockChain::len`. -/
def BlockChain.len (c : BlockChain) : Nat :=
  c.successors.length + 1

mutual
/-- Rust `contains` (src/blocktree.rs): true iff some node of the tree has the
same block hash as `block`. -/
def contains (block : Block) : BlockTree → Bool
  | .mk r cs => r.block_hash == block.block_hash || containsL block cs
def containsL (block : Block) : List BlockTree → Bool
  | [] => false
  | t :: ts => contains block t || containsL block ts
end

mutual
/-- Search performed by Rust `find_mut` (src/blocktree.rs): true iff some node
of the tree has root block hash `h`. `find_mut` checks the root first and then
the children in order, returning the first pre-order match. -/
def contains_hash (h : Nat) : BlockTree → Bool
  | .mk r cs => r.block_hash == h || contains_hashL h cs
def contains_hashL (h : Nat) : List BlockTree → Bool
  | [] => false
  | t :: ts => contains_hash h t || contains_hashL h ts
end

mutual
/-- Mutation performed by a successful Rust
`find_mut(block_tree, &block.header.prev_blockhash)` followed by
`block_subtree.children.push(BlockTree::new(block))` (src/blocktree.rs):
the first pre-order node whose root hash equals the block's `prev_blockhash`
gets a new leaf appended as its last child; `none` when no node matches. -/
def attach_block (b : Block) : BlockTree → Option BlockTree
  | .mk r cs =>
    if r.block_hash == b.header.prev_blockhash then
      some (.mk r (cs ++ [BlockTree.new b]))
    else
      match attach_blockL b cs with
      | some cs' => some (.mk r cs')
      | none => none
def attach_blockL (b : Block) : List BlockTree → Option (List BlockTree)
  | [] => none
  | t :: ts =>
    match attach_block b t with
    | some t' => some (t' :: ts)
    | none =>
      match attach_blockL b ts with
      | some ts' => some (t :: ts')
      | none => none
end

/-- Rust error `BlockDoesNotExtendTree(pub Block)`. -/
structure BlockDoesNotExtendTree where
  block : Block
deriving DecidableEq, Repr

/-- Rust `extend` (src/blocktree.rs). The Rust function mutates the tree and
returns `Result<(), BlockDoesNotExtendTree>`; here the resulting tree is
returned in the `ok` case (on error the Rust tree is left unchanged). -/
def extend (block_tree : BlockTree) (block : Block) :
    Except BlockDoesNotExtendTree BlockTree :=
  if contains block block_tree then
    .ok block_tree
  else
    match attach_block block block_tree with
    | some t' => .ok t'
    | none => .error ⟨block⟩

/-- The tree after a Rust call `extend(&mut tree, block)` returns, whether the
call succeeded or not (on error the tree is unchanged). -/
def extendApply (block_tree : BlockTree) (block : Block) : BlockTree :=
  match extend block_tree block with
  | .ok t' => t'
  | .error _ => block_tree

mutual
/-- Rust `blockchains` (src/blocktree.rs): all root-to-leaf chains. -/
def blockchains : BlockTree → List BlockChain
  | .mk r cs =>
    match cs with
    | [] => [⟨r, []⟩]
    | _ :: _ => blockchainsL r cs
def blockchainsL (r : Block) : List BlockTree → List BlockChain
  | [] => []
  | c :: rest =>
    (blockchains c).map (fun bc => ⟨r, into_chain bc⟩) ++ blockchainsL r rest
end

mutual
/-- Rust `get_chain_with_tip_reverse` (src/blocktree.rs): depth-first search
for the node with hash `tip`; the chain is returned in reverse order, tip
first and root last. -/
def get_chain_with_tip_reverse (tip : Nat) : BlockTree → Option (List Block)
  | .mk r cs =>
    if r.block_hash == tip then
      some [r]
    else
      match get_chain_with_tip_reverseL tip cs with
      | some chain => some (chain ++ [r])
      | none => none
def get_chain_with_tip_reverseL (tip : Nat) : List BlockTree → Option (List Block)
  | [] => none
  | c :: rest =>
    match get_chain_with_tip_reverse tip c with
    | some chain => some chain
    | none => get_chain_with_tip_reverseL tip rest
end

/-- Rust `get_chain_with_tip` (src/blocktree.rs): the reverse chain's last
element (popped in Rust) is the first block; the remainder is reversed to
give the successors. The Rust `unwrap` of the pop is modelled by the
unreachable `none` branch. -/
def get_chain_with_tip (block_tree : BlockTree) (tip : Nat) : Option BlockChain :=
  match get_chain_with_tip_reverse tip block_tree with
  | none => none
  | some chain =>
    match chain.getLast? with
    | none => none
    | some first => some ⟨first, chain.dropLast.reverse⟩

mutual
/-- Rust `depth` (src/blocktree.rs): 0 for a childless tree, otherwise the
maximum over children of one plus the child's depth. -/
def depth : BlockTree → Nat
  | .mk _ cs =>
    match cs with
    | [] => 0
    | _ :: _ => depthL cs
def depthL : List BlockTree → Nat
  | [] => 0
  | c :: rest => max (1 + depth c) (depthL rest)
end

/-! ## Serialization (src/blocktree.rs `serialize_block`/`deserialize_block`
and the serde derives of `BlockTree` and `State`)

The Bitcoin consensus codec and the CBOR envelope are external dependencies;
they are modelled as a self-describing token stream: every encoder is
length-prefixed where needed so that decoding is unambiguous. -/

/-- Rust `serialize_block` (src/blocktree.rs). Modelled from the spec:
the Bitcoin consensus encoding of a block is its header followed by a
count-prefixed transaction list. -/
def serialize_block (b : Block) : List Nat :=
  b.header.prev_blockhash :: b.header.rest :: b.txdata.length :: b.txdata

/-- Helper splitting the first `n` tokens off a stream. -/
def takeDrop (n : Nat) (l : List Nat) : Option (List Nat × List Nat) :=
  if n ≤ l.length then some (l.take n, l.drop n) else none

/-- Rust `deserialize_block` (src/blocktree.rs). Modelled from the spec:
inverse of the consensus encoding, returning the remaining stream. -/
def deserialize_block : List Nat → Option (Block × List Nat)
  | p :: r :: n :: rest =>
    match takeDrop n rest with
    | some (tx, rem) => some (⟨⟨p, r⟩, tx⟩, rem)
    | none => none
  | _ => none

mutual
/-- Serde derive for `BlockTree` (src/blocktree.rs): the root block is encoded
with `serialize_block`, then the children vector is encoded count-prefixed,
in order — sibling order is therefore preserved on the wire. -/
def serializeTree : BlockTree → List Nat
  | .mk r cs => serialize_block r ++ cs.length :: serializeTreeL cs
def serializeTreeL : List BlockTree → List Nat
  | [] => []
  | t :: ts => serializeTree t ++ serializeTreeL ts
end

mutual
/-- Decoder for `serializeTree`; `f` is recursion fuel (any value at least the
number of nodes suffices, see `deserializeTree_roundtrip`). -/
def deserializeTree : Nat → List Nat → Option (BlockTree × List Nat)
  | 0, _ => none
  | f + 1, l =>
    match deserialize_block l with
    | none => none
    | some (r, l1) =>
      match l1 with
      | [] => none
      | n :: l2 =>
        match deserializeTreeL f n l2 with
        | none => none
        | some (cs, l3) => some (.mk r cs, l3)
termination_by f l => (f, 0)
def deserializeTreeL : Nat → Nat → List Nat → Option (List BlockTree × List Nat)
  | _, 0, l => some ([], l)
  | f, n + 1, l =>
    match deserializeTree f l with
    | none => none
    | some (c, l1) =>
      match deserializeTreeL f n l1 with
      | none => none
      | some (cs, l2) => some (c :: cs, l2)
termination_by f n l => (f, n + 1)
end

mutual
/-- Number of nodes of a tree (a lower bound for decoder fuel). -/
def numNodes : BlockTree → Nat
  | .mk _ cs => 1 + numNodesL cs
def numNodesL : List BlockTree → Nat
  | [] => 0
  | t :: ts => numNodes t + numNodesL ts
end

/-- Decoder for a `BlockTree` with fuel taken from the stream length, which
always suffices since each node occupies at least one token. -/
def deserializeBlockTree (l : List Nat) : Option (BlockTree × List Nat) :=
  deserializeTree l.length l

/-! ### Generic encoders for the remaining `State` fields -/

def serializeNat (n : Nat) : List Nat := [n]

def deserializeNat : List Nat → Option (Nat × List Nat)
  | [] => none
  | n :: r => some (n, r)

def serializeBool (b : Bool) : List Nat := [if b then 1 else 0]

def deserializeBool : List Nat → Option (Bool × List Nat)
  | 0 :: r => some (false, r)
  | 1 :: r => some (true, r)
  | _ => none

def serializeOption (f : α → List Nat) : Option α → List Nat
  | none => [0]
  | some x => 1 :: f x

def deserializeOption (f : List Nat → Option (α × List Nat)) :
    List Nat → Option (Option α × List Nat)
  | 0 :: r => some (none, r)
  | 1 :: r =>
    match f r with
    | some (x, r') => some (some x, r')
    | none => none
  | _ => none

def serializePair (f : α → List Nat) (g : β → List Nat) (p : α × β) : List Nat :=
  f p.1 ++ g p.2

def deserializePair (f : List Nat → Option (α × List Nat))
    (g : List Nat → Option (β × List Nat)) (l : List Nat) :
    Option ((α × β) × List Nat) :=
  match f l with
  | none => none
  | some (a, l1) =>
    match g l1 with
    | none => none
    | some (b, l2) => some ((a, b), l2)

def serializeList (f : α → List Nat) (l : List α) : List Nat :=
  l.length :: (l.map f).flatten

def deserializeListN (f : List Nat → Option (α × List Nat)) :
    Nat → List Nat → Option (List α × List Nat)
  | 0, l => some ([], l)
  | n + 1, l =>
    match f l with
    | none => none
    | some (x, l1) =>
      match deserializeListN f n l1 with
      | none => none
      | some (xs, l2) => some (x :: xs, l2)

def deserializeList (f : List Nat → Option (α × List Nat)) :
    List Nat → Option (List α × List Nat)
  | [] => none
  | n :: r => deserializeListN f n r

/-! ## The State model (canister/src/state.rs)

The `State` struct is declared in canister/src/state.rs; the inner types
`UtxoSet`, `UnstableBlocks`, `BlockHeaderStore`, `Metrics`, `Fees` live in
modules whose code is not available and are modelled from the spec at the
granularity the claims require. -/

/-- Modelled from the spec: the `UtxoSet` (spec section 3, C3). `network`, the
`next_height` counter, the suspended-work marker `ingesting_block`
(spec `PartialIngestionState`, abstracted to a single token) and the
outpoint-to-output maps flattened into one association list. -/
structure UtxoSet where
  network : Nat
  next_height : Nat
  ingesting_block : Option Nat
  utxos : List (Nat × Nat)
deriving DecidableEq, Repr

/-- Modelled from the spec: `UnstableBlocks` (spec section 4.2) wraps the
block tree with the stability threshold and the network. -/
structure UnstableBlocks where
  blocks : BlockTree
  stability_threshold : Nat
  network : Nat

/-- Rust `SyncingState` (canister/src/state.rs): flags and error counters. -/
structure SyncingState where
  syncing : Bool
  is_fetching_blocks : Bool
  response_to_process : Option Nat
  num_get_successors_rejects : Nat
  num_block_deserialize_errors : Nat
  num_insert_block_errors : Nat
deriving DecidableEq, Repr

/-- Rust `State` (canister/src/state.rs). Field for field; types not under
src/ are the spec-modelled stand-ins above: `blocks_source` (a principal),
`fee_percentiles_cache` (tip hash and percentiles), `stable_block_headers`
(header store contents as block/height pairs), `fees`, `metrics`
(the `block_ingestion_stats` the ingestion loop writes) and the two flags. -/
structure State where
  utxos : UtxoSet
  unstable_blocks : UnstableBlocks
  syncing_state : SyncingState
  blocks_source : Nat
  fee_percentiles_cache : Option (Nat × List Nat)
  stable_block_headers : List (Block × Nat)
  fees : List Nat
  metrics : Nat
  api_access : Bool
  disable_api_if_not_fully_synced : Bool

def serializeUtxoSet (u : UtxoSet) : List Nat :=
  serializeNat u.network ++ serializeNat u.next_height ++
    serializeOption serializeNat u.ingesting_block ++
    serializeList (serializePair serializeNat serializeNat) u.utxos

def deserializeUtxoSet (l : List Nat) : Option (UtxoSet × List Nat) := do
  let (network, l) ← deserializeNat l
  let (next_height, l) ← deserializeNat l
  let (ingesting, l) ← deserializeOption deserializeNat l
  let (utxos, l) ← deserializeList (deserializePair deserializeNat deserializeNat) l
  some (⟨network, next_height, ingesting, utxos⟩, l)

def serializeUnstableBlocks (u : UnstableBlocks) : List Nat :=
  serializeTree u.blocks ++ serializeNat u.stability_threshold ++
    serializeNat u.network

def deserializeUnstableBlocks (l : List Nat) : Option (UnstableBlocks × List Nat) := do
  let (blocks, l) ← deserializeBlockTree l
  let (st, l) ← deserializeNat l
  let (network, l) ← deserializeNat l
  some (⟨blocks, st, network⟩, l)

def serializeSyncingState (s : SyncingState) : List Nat :=
  serializeBool s.syncing ++ serializeBool s.is_fetching_blocks ++
    serializeOption serializeNat s.response_to_process ++
    serializeNat s.num_get_successors_rejects ++
    serializeNat s.num_block_deserialize_errors ++
    serializeNat s.num_insert_block_errors

def deserializeSyncingState (l : List Nat) : Option (SyncingState × List Nat) := do
  let (syncing, l) ← deserializeBool l
  let (fetching, l) ← deserializeBool l
  let (resp, l) ← deserializeOption deserializeNat l
  let (rejects, l) ← deserializeNat l
  let (deser_errors, l) ← deserializeNat l
  let (insert_errors, l) ← deserializeNat l
  some (⟨syncing, fetching, resp, rejects, deser_errors, insert_errors⟩, l)

/-- Modelled from the spec: the self-describing state snapshot (spec section
6) encodes every `State` field in declaration order. -/
def serializeState (s : State) : List Nat :=
  serializeUtxoSet s.utxos ++ serializeUnstableBlocks s.unstable_blocks ++
    serializeSyncingState s.syncing_state ++ serializeNat s.blocks_source ++
    serializeOption (serializePair serializeNat (serializeList serializeNat))
      s.fee_percentiles_cache ++
    serializeList (serializePair serialize_block serializeNat)
      s.stable_block_headers ++
    serializeList serializeNat s.fees ++ serializeNat s.metrics ++
    serializeBool s.api_access ++ serializeBool s.disable_api_if_not_fully_synced

/-- Modelled from the spec: inverse of `serializeState`. -/
def deserializeState (l : List Nat) : Option (State × List Nat) := do
  let (utxos, l) ← deserializeUtxoSet l
  let (unstable, l) ← deserializeUnstableBlocks l
  let (syncing, l) ← deserializeSyncingState l
  let (blocks_source, l) ← deserializeNat l
  let (cache, l) ←
    deserializeOption (deserializePair deserializeNat (deserializeList deserializeNat)) l
  let (headers, l) ← deserializeList (deserializePair deserialize_block deserializeNat) l
  let (fees, l) ← deserializeList deserializeNat l
  let (metrics, l) ← deserializeNat l
  let (api_access, l) ← deserializeBool l
  let (disable_flag, l) ← deserializeBool l
  some (⟨utxos, unstable, syncing, blocks_source, cache, headers, fees,
    metrics, api_access, disable_flag⟩, l)

/-! ## State operations (canister/src/state.rs) -/

/-- Rust `State::stable_height` (canister/src/state.rs): the height of the
latest stable block, i.e. `utxos.next_height()`. -/
def stable_height (s : State) : Nat :=
  s.utxos.next_height

/-- Rust `Slicing<(), (BlockHash, BlockIngestionStats)>` as returned by the
UtxoSet ingestion entry points: paused mid-block, or done with the ingested
block hash and the run's stats. -/
inductive Slicing where
  | paused : Slicing
  | done (block_hash : Nat) (stats : Nat) : Slicing

/-- Behaviours of the collaborators of `ingest_stable_blocks_into_utxoset`
whose code is not under src/ (`UtxoSet::ingest_block_continue`,
`unstable_blocks::peek`, `BlockHeaderStore::insert_block`,
`UtxoSet::ingest_block`, `unstable_blocks::pop`). The claim about the return
value is proved for every such behaviour, so no spec-level commitment about
them is needed beyond their signatures. -/
structure IngestEnv where
  ingest_block_continue : UtxoSet → Option Slicing × UtxoSet
  peek : UnstableBlocks → Option Block
  insert_block_header : List (Block × Nat) → Block → Nat → List (Block × Nat)
  ingest_block : UtxoSet → Block → Slicing × UtxoSet
  pop : UnstableBlocks → Nat → Option Block × UnstableBlocks

/-- The `has_state_changed` closure of `ingest_stable_blocks_into_utxoset`
(canister/src/state.rs): whether `(next_height, ingesting_block)` differs
from the pair captured on entry. -/
def has_state_changed (prev : Nat × Option Nat) (s : State) : Bool :=
  decide (prev ≠ (s.utxos.next_height, s.utxos.ingesting_block))

/-- Inner `pop_block` of `ingest_stable_blocks_into_utxoset`
(canister/src/state.rs): pop the stable block at `stable_height()` and assert
it is the block just ingested. The Rust `unwrap`/`assert_eq` panics are the
`none` results. -/
def pop_block (env : IngestEnv) (s : State) (ingested_block_hash : Nat) :
    Option State :=
  match env.pop s.unstable_blocks (stable_height s) with
  | (some popped, ub) =>
    if popped.block_hash = ingested_block_hash then
      some { s with unstable_blocks := ub }
    else
      none
  | (none, _) => none

/-- The `while let Some(new_stable_block) = unstable_blocks::peek(..)` loop of
`ingest_stable_blocks_into_utxoset` (canister/src/state.rs). `fuel` bounds the
iteration count (the Rust loop terminates because every iteration pops a
block from the finite tree); on exhaustion the loop exits exactly as when
`peek` returns `None`. -/
def ingest_loop (env : IngestEnv) (prev : Nat × Option Nat) :
    Nat → State → Option (Bool × State)
  | 0, s => some (has_state_changed prev s, s)
  | f + 1, s =>
    match env.peek s.unstable_blocks with
    | none => some (has_state_changed prev s, s)
    | some new_stable_block =>
      let s1 := { s with stable_block_headers :=
        (env.insert_block_header s.stable_block_headers new_stable_block
          s.utxos.next_height) }
      match env.ingest_block s1.utxos new_stable_block with
      | (.paused, u) =>
        let s2 := { s1 with utxos := u }
        some (has_state_changed prev s2, s2)
      | (.done h stats, u) =>
        let s2 := { s1 with utxos := u, metrics := stats }
        match pop_block env s2 h with
        | none => none
        | some s3 => ingest_loop env prev f s3

/-- Rust `ingest_stable_blocks_into_utxoset` (canister/src/state.rs),
transcribed with its collaborators supplied by `env`. The result is `none`
when a Rust assertion would panic, otherwise the returned bool and the state
after the call. -/
def ingest_stable_blocks_into_utxoset (env : IngestEnv) (fuel : Nat)
    (state : State) : Option (Bool × State) :=
  let prev := (state.utxos.next_height, state.utxos.ingesting_block)
  match env.ingest_block_continue state.utxos with
  | (none, u) => ingest_loop env prev fuel { state with utxos := u }
  | (some .paused, u) =>
    let s1 := { state with utxos := u }
    some (has_state_changed prev s1, s1)
  | (some (.done h stats), u) =>
    let s1 := { state with utxos := u, metrics := stats }
    match pop_block env s1 h with
    | none => none
    | some s2 => ingest_loop env prev fuel s2

/-- Helper for `get_main_chain`: the first list of maximal length. -/
def pick_longest : List (List Block) → List Block
  | [] => []
  | c :: cs =>
    let rest := pick_longest cs
    if rest.length > c.length then rest else c

/-- Modelled from the spec: `unstable_blocks::get_main_chain` (spec section
4.2), whose code is not under src/ — the chain from the tree root along the
deepest path, ties broken by insertion (sibling) order; equivalently the
first chain of maximal length among `blockchains`, whose order is the DFS
pre-order of leaves. -/
def get_main_chain (u : UnstableBlocks) : List Block :=
  pick_longest ((blockchains u.blocks).map into_chain)

/-- Modulus of the Rust `u32` arithmetic in `main_chain_height`. -/
def U32 : Nat := 4294967296

/-- Rust `main_chain_height` (canister/src/state.rs):
`get_main_chain(..).len() as u32 + state.utxos.next_height() - 1` with the
release-mode wrapping semantics of the `usize → u32` cast, the addition and
the subtraction. -/
def main_chain_height (s : State) : Nat :=
  (((get_main_chain s.unstable_blocks).length % U32 + s.utxos.next_height) % U32
    + (U32 - 1)) % U32

/-! ## build-balances (bootstrap/state-builder/src/build_balances.rs) -/

/-- Digit run of Rust `u64::from_str`: at least one ASCII digit, accumulated
in base 10; values of 2^64 and above are rejected (overflow). -/
def parseDigits : List Char → Option Nat
  | [] => none
  | l =>
    let rec go : List Char → Nat → Option Nat
      | [], acc => some acc
      | c :: cs, acc =>
        if '0' ≤ c ∧ c ≤ '9' then
          go cs (acc * 10 + (c.toNat - '0'.toNat))
        else
          none
    match go l 0 with
    | some v => if v < 18446744073709551616 then some v else none
    | none => none

/-- Rust `str::parse::<u64>()`: an optional leading plus sign followed by a
non-empty digit run, no other characters, no overflow. -/
def parseU64 (s : String) : Option Nat :=
  match s.data with
  | [] => none
  | '+' :: rest => parseDigits rest
  | l => parseDigits l

/-- One step of the balances map update
(`balances.entry(address).and_modify(|curr| *curr += amount).or_insert(amount)`
in build_balances.rs): the map is an association list with unique keys; the
addition wraps like the release-mode `u64` addition. -/
def updateBalance : List (Nat × Nat) → Nat → Nat → List (Nat × Nat)
  | [], a, amount => [(a, amount)]
  | (k, v) :: rest, a, amount =>
    if k = a then
      (k, (v + amount) % 18446744073709551616) :: rest
    else
      (k, v) :: updateBalance rest a amount

/-- Lookup in the balances map. -/
def getBal : List (Nat × Nat) → Nat → Option Nat
  | [], _ => none
  | (k, v) :: rest, a => if k = a then some v else getBal rest a

/-- Loop body of `main` in build_balances.rs for one input line, already split
at commas into `parts`. `parse_address` stands for the external
`bitcoin::Address::from_str` composed with the `OurAddress` conversion.
`none` models a panic: the `parts[3]` and `parts[5]` index expressions panic
when the line has too few fields, and `.parse().unwrap()` panics when
`parts[3]` is not a `u64`. A failing address parse is skipped; an amount of
zero is dropped. -/
def processLine (parse_address : String → Option Nat)
    (balances : List (Nat × Nat)) (parts : List String) :
    Option (List (Nat × Nat)) :=
  match parts[3]? with
  | none => none
  | some amount_str =>
    match parseU64 amount_str with
    | none => none
    | some amount =>
      match parts[5]? with
      | none => none
      | some address_str =>
        match parse_address address_str with
        | some address =>
          if amount ≠ 0 then
            some (updateBalance balances address amount)
          else
            some balances
        | none => some balances

/-- The balances-building loop of `main` in build_balances.rs over all input
lines (each already split at commas), starting from the empty map. `none`
models a panic on some line. -/
def build_balances (parse_address : String → Option Nat)
    (lines : List (List String)) : Option (List (Nat × Nat)) :=
  lines.foldl (fun acc parts => acc.bind fun m => processLine parse_address m parts)
    (some [])

/-- Amount field of a line (field index 3), for stating the aggregation
property; defaults never fire on lines the claim quantifies over. -/
def rowAmount (parts : List String) : Nat :=
  (parseU64 (parts.getD 3 "")).getD 0

/-- Sum of the amounts of all lines whose address field (index 5) parses to
`a`. -/
def sumFor (parse_address : String → Option Nat) :
    List (List String) → Nat → Nat
  | [], _ => 0
  | p :: rest, a =>
    (if parse_address (p.getD 5 "") = some a then rowAmount p else 0)
      + sumFor parse_address rest a

/-! ## Property vocabulary

Predicates and observers used only to state the verified properties. -/

mutual
/-- Hashes of all nodes of a tree, in DFS pre-order. -/
def allHashes : BlockTree → List Nat
  | .mk r cs => r.block_hash :: allHashesL cs
def allHashesL : List BlockTree → List Nat
  | [] => []
  | t :: ts => allHashes t ++ allHashesL ts
end

mutual
/-- Parent-link invariant: every child's `header.prev_blockhash` equals its
parent's block hash, recursively. -/
def wellFormed : BlockTree → Bool
  | .mk r cs => wellFormedL r.block_hash cs
def wellFormedL (parentHash : Nat) : List BlockTree → Bool
  | [] => true
  | t :: ts =>
    (t.root.header.prev_blockhash == parentHash && wellFormed t)
      && wellFormedL parentHash ts
end

/-- Relation "the second tree is the first with one new leaf for `b` appended
as the LAST child of a node whose block hash equals the new block's
`prev_blockhash`". This is the shape of every successful insertion. -/
inductive AppendLeaf (b : Block) : BlockTree → BlockTree → Prop
  | here (r : Block) (cs : List BlockTree)
      (hhash : r.block_hash = b.header.prev_blockhash) :
      AppendLeaf b (.mk r cs) (.mk r (cs ++ [BlockTree.new b]))
  | deeper (r : Block) (pre post : List BlockTree) (c c' : BlockTree)
      (h : AppendLeaf b c c') :
      AppendLeaf b (.mk r (pre ++ c :: post)) (.mk r (pre ++ c' :: post))

/-- Chains of blocks that descend from the root of a tree: `[root]`, or the
root followed by a root-descending chain of one of its children. -/
inductive IsRootPath : BlockTree → List Block → Prop
  | root (r : Block) (cs : List BlockTree) : IsRootPath (.mk r cs) [r]
  | step (r : Block) (cs : List BlockTree) (c : BlockTree) (p : List Block)
      (hc : c ∈ cs) (hp : IsRootPath c p) : IsRootPath (.mk r cs) (r :: p)

/-- Root-to-leaf chains of a tree. -/
inductive IsLeafPath : BlockTree → List Block → Prop
  | leaf (r : Block) : IsLeafPath (.mk r []) [r]
  | step (r : Block) (cs : List BlockTree) (c : BlockTree) (p : List Block)
      (hc : c ∈ cs) (hp : IsLeafPath c p) : IsLeafPath (.mk r cs) (r :: p)

mutual
/-- Leaf blocks of a tree, in DFS pre-order. -/
def leaves : BlockTree → List Block
  | .mk r cs =>
    match cs with
    | [] => [r]
    | _ :: _ => leavesL cs
def leavesL : List BlockTree → List Block
  | [] => []
  | t :: ts => leaves t ++ leavesL ts
end

/-- Maximum of a list of naturals (0 for the empty list). -/
def listMax : List Nat → Nat
  | [] => 0
  | n :: ns => max n (listMax ns)

/-- Tip of a chain: its last block. -/
def chain_tip (c : BlockChain) : Block :=
  match c.successors.getLast? with
  | none => c.first
  | some b => b

/-! ## Concrete objects for the witnesses -/

/-- A concrete block. -/
def blkW : Block := ⟨⟨0, 1⟩, [7]⟩

/-- A concrete child of `blkW`. -/
def blkW2 : Block := ⟨⟨blkW.block_hash, 2⟩, []⟩

/-- A concrete two-node tree. -/
def treeW : BlockTree := .mk blkW [BlockTree.new blkW2]

/-- A concrete state used by witnesses. -/
def stateW : State where
  utxos := ⟨0, 5, none, []⟩
  unstable_blocks := ⟨treeW, 2, 0⟩
  syncing_state := ⟨true, false, none, 0, 0, 0⟩
  blocks_source := 0
  fee_percentiles_cache := none
  stable_block_headers := []
  fees := []
  metrics := 0
  api_access := true
  disable_api_if_not_fully_synced := true

/-- A concrete collaborator environment used by the `c2` witness: nothing to
continue, nothing stable to peek. -/
def envW : IngestEnv where
  ingest_block_continue := fun u => (none, u)
  peek := fun _ => none
  insert_block_header := fun hs _ _ => hs
  ingest_block := fun u _ => (.paused, u)
  pop := fun ub _ => (none, ub)

/-- A concrete address parser for the `c9` witness: accepts the two strings
"addrA" and "addrB". -/
def parseAddrW (s : String) : Option Nat :=
  if s = "addrA" then some 10 else if s = "addrB" then some 11 else none

/-- Concrete input lines for the `c9` witness. -/
def linesW : List (List String) :=
  [["t", "0", "h", "40", "x", "addrA"],
   ["t", "1", "h", "0", "x", "addrB"],
   ["t", "2", "h", "2", "x", "addrA"],
   ["t", "3", "h", "5", "x", "nonsense"]]

/-- Concrete input lines whose per-address total overflows `u64`: two rows for
"addrA", each of amount 2^63. -/
def linesOv : List (List String) :=
  [["t", "0", "h", "9223372036854775808", "x", "addrA"],
   ["t", "1", "h", "9223372036854775808", "x", "addrA"]]

/-! ## Theorems -/

/-- Structural induction principle for the nested inductive `BlockTree`. -/
theorem blockTree_ind {P : BlockTree → Prop}
    (h : ∀ r cs, (∀ c ∈ cs, P c) → P (BlockTree.mk r cs)) : ∀ t, P t := by
  have key : ∀ n t, sizeOf t ≤ n → P t := by
    intro n
    induction n with
    | zero => intro t ht; cases t with | mk r cs => exact absurd ht (by simp)
    | succ n ih =>
      intro t ht
      cases t with
      | mk r cs =>
        apply h
        intro c hc
        apply ih
        have h1 := List.sizeOf_lt_of_mem hc
        simp at ht
        omega
  intro t
  exact key (sizeOf t) t le_rfl

theorem deserialize_serialize_block (b : Block) (r : List Nat) :
    deserialize_block (serialize_block b ++ r) = some (b, r) := by
  simp [serialize_block, deserialize_block, takeDrop]

theorem numNodesL_le_serializeTreeL (cs : List BlockTree)
    (hmem : ∀ c ∈ cs, numNodes c ≤ (serializeTree c).length) :
    numNodesL cs ≤ (serializeTreeL cs).length := by
  induction cs with
  | nil => simp [numNodesL, serializeTreeL]
  | cons c rest ih =>
    have h1 := hmem c (by simp)
    have h2 := ih (fun x hx => hmem x (by simp [hx]))
    simp only [numNodesL, serializeTreeL, List.length_append]
    omega

theorem numNodes_le_serializeTree (t : BlockTree) :
    numNodes t ≤ (serializeTree t).length := by
  induction t using blockTree_ind with
  | h r cs ih =>
    have h2 := numNodesL_le_serializeTreeL cs ih
    simp only [numNodes, serializeTree, List.length_append, serialize_block,
      List.length_cons]
    omega

theorem deserializeTree_roundtrip_aux (f : Nat) :
    (∀ (t : BlockTree) (r : List Nat), numNodes t ≤ f →
      deserializeTree f (serializeTree t ++ r) = some (t, r)) ∧
    (∀ (cs : List BlockTree) (r : List Nat), numNodesL cs ≤ f →
      deserializeTreeL f cs.length (serializeTreeL cs ++ r) = some (cs, r)) := by
  induction f with
  | zero =>
    constructor
    · intro t r ht
      cases t with
      | mk a b => simp [numNodes] at ht
    · intro cs r hcs
      cases cs with
      | nil => simp [serializeTreeL, deserializeTreeL]
      | cons c rest =>
        cases c with
        | mk a b => simp [numNodesL, numNodes] at hcs
  | succ f ih =>
    have hA : ∀ (t : BlockTree) (r : List Nat), numNodes t ≤ f + 1 →
        deserializeTree (f + 1) (serializeTree t ++ r) = some (t, r) := by
      intro t r ht
      cases t with
      | mk root cs =>
        have hcs : numNodesL cs ≤ f := by
          simp only [numNodes] at ht
          omega
        have h2 := ih.2 cs r hcs
        simp only [serializeTree, List.append_assoc, List.cons_append]
        simp only [deserializeTree, deserialize_serialize_block, h2]
    refine ⟨hA, ?_⟩
    intro cs r hcs
    induction cs with
    | nil => simp [serializeTreeL, deserializeTreeL]
    | cons c rest ihl =>
      have hc : numNodes c ≤ f + 1 := by
        simp only [numNodesL] at hcs
        cases c with
        | mk a b => simp only [numNodes] at hcs ⊢; omega
      have hrest : numNodesL rest ≤ f + 1 := by
        simp only [numNodesL] at hcs
        cases c with
        | mk a b => simp only [numNodes] at hcs; omega
      have h1 := hA c (serializeTreeL rest ++ r) hc
      have h2 := ihl hrest
      simp only [serializeTreeL, List.append_assoc, List.length_cons]
      simp only [deserializeTreeL, h1, h2]

theorem deserializeBlockTree_roundtrip (t : BlockTree) (r : List Nat) :
    deserializeBlockTree (serializeTree t ++ r) = some (t, r) := by
  have h1 := numNodes_le_serializeTree t
  have h2 : numNodes t ≤ (serializeTree t ++ r).length := by
    simp only [List.length_append]
    omega
  exact (deserializeTree_roundtrip_aux (serializeTree t ++ r).length).1 t r h2

theorem deserializeNat_roundtrip (n : Nat) (r : List Nat) :
    deserializeNat (serializeNat n ++ r) = some (n, r) := rfl

theorem deserializeBool_roundtrip (b : Bool) (r : List Nat) :
    deserializeBool (serializeBool b ++ r) = some (b, r) := by
  cases b <;> rfl

theorem deserializeOption_roundtrip {α : Type} (f : α → List Nat)
    (g : List Nat → Option (α × List Nat))
    (hfg : ∀ x r, g (f x ++ r) = some (x, r)) (o : Option α) (r : List Nat) :
    deserializeOption g (serializeOption f o ++ r) = some (o, r) := by
  cases o with
  | none => rfl
  | some x => simp [serializeOption, deserializeOption, hfg]

theorem deserializePair_roundtrip {α β : Type} (f : α → List Nat)
    (g : β → List Nat) (f' : List Nat → Option (α × List Nat))
    (g' : List Nat → Option (β × List Nat))
    (hf : ∀ x r, f' (f x ++ r) = some (x, r))
    (hg : ∀ x r, g' (g x ++ r) = some (x, r)) (p : α × β) (r : List Nat) :
    deserializePair f' g' (serializePair f g p ++ r) = some (p, r) := by
  cases p with
  | mk a b => simp [serializePair, deserializePair, List.append_assoc, hf, hg]

theorem deserializeListN_roundtrip {α : Type} (f : α → List Nat)
    (f' : List Nat → Option (α × List Nat))
    (hf : ∀ x r, f' (f x ++ r) = some (x, r)) (l : List α) (r : List Nat) :
    deserializeListN f' l.length ((l.map f).flatten ++ r) = some (l, r) := by
  induction l with
  | nil => rfl
  | cons x xs ih =>
    simp only [List.map_cons, List.flatten_cons, List.length_cons,
      List.append_assoc]
    simp [deserializeListN, hf, ih]

theorem deserializeList_roundtrip {α : Type} (f : α → List Nat)
    (f' : List Nat → Option (α × List Nat))
    (hf : ∀ x r, f' (f x ++ r) = some (x, r)) (l : List α) (r : List Nat) :
    deserializeList f' (serializeList f l ++ r) = some (l, r) := by
  simp [serializeList, deserializeList, deserializeListN_roundtrip f f' hf]

theorem deserializeUtxoSet_roundtrip (u : UtxoSet) (r : List Nat) :
    deserializeUtxoSet (serializeUtxoSet u ++ r) = some (u, r) := by
  cases u with
  | mk network next ing utxos =>
    simp [serializeUtxoSet, deserializeUtxoSet, List.append_assoc,
      deserializeNat_roundtrip,
      deserializeOption_roundtrip serializeNat deserializeNat
        deserializeNat_roundtrip,
      deserializeList_roundtrip (serializePair serializeNat serializeNat)
        (deserializePair deserializeNat deserializeNat)
        (deserializePair_roundtrip serializeNat serializeNat deserializeNat
          deserializeNat deserializeNat_roundtrip deserializeNat_roundtrip),
      serializeNat, deserializeNat]

theorem deserializeUnstableBlocks_roundtrip (u : UnstableBlocks) (r : List Nat) :
    deserializeUnstableBlocks (serializeUnstableBlocks u ++ r) = some (u, r) := by
  cases u with
  | mk blocks st network =>
    simp [serializeUnstableBlocks, deserializeUnstableBlocks, List.append_assoc,
      deserializeBlockTree_roundtrip, serializeNat, deserializeNat]

theorem deserializeSyncingState_roundtrip (s : SyncingState) (r : List Nat) :
    deserializeSyncingState (serializeSyncingState s ++ r) = some (s, r) := by
  cases s with
  | mk a b c d e f =>
    simp [serializeSyncingState, deserializeSyncingState, List.append_assoc,
      deserializeBool_roundtrip,
      deserializeOption_roundtrip serializeNat deserializeNat
        deserializeNat_roundtrip,
      serializeNat, deserializeNat]

theorem deserializeState_roundtrip (s : State) (r : List Nat) :
    deserializeState (serializeState s ++ r) = some (s, r) := by
  cases s with
  | mk u ub sy bs cache headers fees metrics api dis =>
    simp only [serializeState, deserializeState, List.append_assoc]
    rw [deserializeUtxoSet_roundtrip]
    simp only [Option.bind_eq_bind, Option.some_bind]
    rw [deserializeUnstableBlocks_roundtrip]
    simp only [Option.some_bind]
    rw [deserializeSyncingState_roundtrip]
    simp only [Option.some_bind]
    rw [deserializeNat_roundtrip]
    simp only [Option.some_bind]
    rw [deserializeOption_roundtrip
      (serializePair serializeNat (serializeList serializeNat))
      (deserializePair deserializeNat (deserializeList deserializeNat))
      (deserializePair_roundtrip serializeNat (serializeList serializeNat)
        deserializeNat (deserializeList deserializeNat)
        deserializeNat_roundtrip
        (deserializeList_roundtrip serializeNat deserializeNat
          deserializeNat_roundtrip))]
    simp only [Option.some_bind]
    rw [deserializeList_roundtrip (serializePair serialize_block serializeNat)
      (deserializePair deserialize_block deserializeNat)
      (deserializePair_roundtrip serialize_block serializeNat
        deserialize_block deserializeNat deserialize_serialize_block
        deserializeNat_roundtrip)]
    simp only [Option.some_bind]
    rw [deserializeList_roundtrip serializeNat deserializeNat
      deserializeNat_roundtrip]
    simp only [Option.some_bind]
    rw [deserializeNat_roundtrip]
    simp only [Option.some_bind]
    rw [deserializeBool_roundtrip]
    simp only [Option.some_bind]
    rw [deserializeBool_roundtrip]
    simp only [Option.some_bind]

/-! ### Tree membership lemmas -/

theorem allHashesL_append (l m : List BlockTree) :
    allHashesL (l ++ m) = allHashesL l ++ allHashesL m := by
  induction l with
  | nil => rfl
  | cons t ts ih => simp [allHashesL, ih]

theorem containsL_iff_mem (b : Block) (cs : List BlockTree)
    (ih : ∀ c ∈ cs, (contains b c = true ↔ b.block_hash ∈ allHashes c)) :
    containsL b cs = true ↔ b.block_hash ∈ allHashesL cs := by
  induction cs with
  | nil => simp [containsL, allHashesL]
  | cons c rest ihl =>
    have h1 := ih c (by simp)
    have h2 := ihl (fun x hx => ih x (by simp [hx]))
    simp [containsL, allHashesL, h1, h2]

theorem contains_iff_mem (t : BlockTree) (b : Block) :
    contains b t = true ↔ b.block_hash ∈ allHashes t := by
  induction t using blockTree_ind with
  | h r cs ih =>
    have hl := containsL_iff_mem b cs ih
    simp only [contains, allHashes, Bool.or_eq_true, beq_iff_eq, List.mem_cons,
      hl]
    constructor
    · rintro (h | h)
      · exact Or.inl h.symm
      · exact Or.inr h
    · rintro (h | h)
      · exact Or.inl h.symm
      · exact Or.inr h

theorem contains_hashL_iff_mem (h : Nat) (cs : List BlockTree)
    (ih : ∀ c ∈ cs, (contains_hash h c = true ↔ h ∈ allHashes c)) :
    contains_hashL h cs = true ↔ h ∈ allHashesL cs := by
  induction cs with
  | nil => simp [contains_hashL, allHashesL]
  | cons c rest ihl =>
    have h1 := ih c (by simp)
    have h2 := ihl (fun x hx => ih x (by simp [hx]))
    simp [contains_hashL, allHashesL, h1, h2]

theorem contains_hash_iff_mem (t : BlockTree) (h : Nat) :
    contains_hash h t = true ↔ h ∈ allHashes t := by
  induction t using blockTree_ind with
  | h r cs ih =>
    have hl := contains_hashL_iff_mem h cs ih
    simp only [contains_hash, allHashes, Bool.or_eq_true, beq_iff_eq,
      List.mem_cons, hl]
    constructor
    · rintro (h1 | h1)
      · exact Or.inl h1.symm
      · exact Or.inr h1
    · rintro (h1 | h1)
      · exact Or.inl h1.symm
      · exact Or.inr h1

/-! ### Attachment lemmas -/

theorem attach_blockL_isSome (b : Block) (cs : List BlockTree)
    (ih : ∀ c ∈ cs,
      (attach_block b c).isSome = contains_hash b.header.prev_blockhash c) :
    (attach_blockL b cs).isSome = contains_hashL b.header.prev_blockhash cs := by
  induction cs with
  | nil => simp [attach_blockL, contains_hashL]
  | cons c rest ihl =>
    have h1 := ih c (by simp)
    have h2 := ihl (fun x hx => ih x (by simp [hx]))
    simp only [attach_blockL, contains_hashL]
    cases hc : attach_block b c with
    | some c' => rw [hc] at h1; simp [← h1]
    | none =>
      rw [hc] at h1
      cases hrest : attach_blockL b rest with
      | some rest' => rw [hrest] at h2; simp [← h1, ← h2]
      | none => rw [hrest] at h2; simp [← h1, ← h2]

theorem attach_block_isSome (t : BlockTree) (b : Block) :
    (attach_block b t).isSome = contains_hash b.header.prev_blockhash t := by
  induction t using blockTree_ind with
  | h r cs ih =>
    have hl := attach_blockL_isSome b cs ih
    simp only [attach_block, contains_hash]
    by_cases hr : r.block_hash == b.header.prev_blockhash
    · simp [hr]
    · simp only [hr, if_false, Bool.false_or]
      cases hcs : attach_blockL b cs with
      | some cs' => rw [hcs] at hl; simp [← hl]
      | none => rw [hcs] at hl; simp [← hl]

theorem attach_blockL_appendLeaf (b : Block) (cs : List BlockTree)
    (ih : ∀ c ∈ cs, ∀ c', attach_block b c = some c' → AppendLeaf b c c') :
    ∀ cs', attach_blockL b cs = some cs' →
      ∃ pre c c' post, cs = pre ++ c :: post ∧ cs' = pre ++ c' :: post ∧
        AppendLeaf b c c' := by
  induction cs with
  | nil => intro cs' h; simp [attach_blockL] at h
  | cons c rest ihl =>
    intro cs' h
    simp only [attach_blockL] at h
    cases hc : attach_block b c with
    | some c' =>
      rw [hc] at h
      refine ⟨[], c, c', rest, by simp, ?_, ih c (by simp) c' hc⟩
      simpa using h.symm
    | none =>
      rw [hc] at h
      cases hrest : attach_blockL b rest with
      | some rest' =>
        rw [hrest] at h
        obtain ⟨pre, c0, c0', post, heq, heq', hap⟩ :=
          ihl (fun x hx => ih x (by simp [hx])) rest' hrest
        refine ⟨c :: pre, c0, c0', post, by simp [heq], ?_, hap⟩
        simp only [List.cons_append]
        simpa [heq'] using h.symm
      | none => rw [hrest] at h; exact absurd h (by simp)

theorem attach_block_appendLeaf (t : BlockTree) (b : Block) :
    ∀ t', attach_block b t = some t' → AppendLeaf b t t' := by
  induction t using blockTree_ind with
  | h r cs ih =>
    intro t' hat
    simp only [attach_block] at hat
    by_cases hr : r.block_hash == b.header.prev_blockhash
    · rw [if_pos hr] at hat
      cases hat
      exact AppendLeaf.here r cs (by simpa using hr)
    · rw [if_neg hr] at hat
      cases hcs : attach_blockL b cs with
      | some cs' =>
        rw [hcs] at hat
        cases hat
        obtain ⟨pre, c, c', post, heq, heq', hap⟩ :=
          attach_blockL_appendLeaf b cs ih cs' hcs
        rw [heq, heq']
        exact AppendLeaf.deeper r pre post c c' hap
      | none => rw [hcs] at hat; exact absurd hat (by simp)

/-! ### Consequences of appending a leaf -/

theorem AppendLeaf.root_eq {b : Block} {t t' : BlockTree}
    (h : AppendLeaf b t t') : t'.root = t.root := by
  cases h <;> rfl

theorem allHashes_appendLeaf {b : Block} {t t' : BlockTree}
    (h : AppendLeaf b t t') :
    List.Perm (allHashes t') (b.block_hash :: allHashes t) := by
  induction h with
  | here r cs hhash =>
    rw [List.perm_iff_count]
    intro a
    simp [allHashes, allHashesL_append, allHashesL, BlockTree.new,
      List.count_append, List.count_cons]
    omega
  | deeper r pre post c c' hap ih =>
    rw [List.perm_iff_count]
    intro a
    have hcount := ih.count_eq a
    simp only [List.count_cons] at hcount
    simp [allHashes, allHashesL_append, allHashesL, List.count_append,
      List.count_cons, hcount]
    omega

theorem wellFormedL_append (p : Nat) (l m : List BlockTree) :
    wellFormedL p (l ++ m) = (wellFormedL p l && wellFormedL p m) := by
  induction l with
  | nil => simp [wellFormedL]
  | cons t ts ih => simp [wellFormedL, ih, Bool.and_assoc]

theorem wellFormed_appendLeaf {b : Block} {t t' : BlockTree}
    (hap : AppendLeaf b t t') (hw : wellFormed t = true) :
    wellFormed t' = true := by
  induction hap with
  | here r cs hhash =>
    simp only [wellFormed] at hw
    simp only [wellFormed, wellFormedL_append, wellFormedL, BlockTree.new,
      BlockTree.root, Bool.and_eq_true]
    refine ⟨hw, ?_, ?_⟩
    · simp [hhash]
    · simp [wellFormed, wellFormedL]
  | deeper r pre post c c' hap ih =>
    simp only [wellFormed, wellFormedL_append, wellFormedL, Bool.and_eq_true]
      at hw ⊢
    obtain ⟨h1, ⟨h2, h3⟩, h4⟩ := hw
    exact ⟨h1, ⟨by rw [hap.root_eq]; exact h2, ih h3⟩, h4⟩

theorem contains_of_attach {b : Block} {t t' : BlockTree}
    (h : attach_block b t = some t') : contains b t' = true := by
  have hap := attach_block_appendLeaf t b t' h
  have hperm := allHashes_appendLeaf hap
  rw [contains_iff_mem]
  exact hperm.mem_iff.mpr (by simp)

theorem nodup_of_attach {b : Block} {t t' : BlockTree}
    (hat : attach_block b t = some t') (hc : contains b t = false)
    (hn : (allHashes t).Nodup) : (allHashes t').Nodup := by
  have hap := attach_block_appendLeaf t b t' hat
  have hperm := allHashes_appendLeaf hap
  rw [hperm.nodup_iff]
  refine List.nodup_cons.mpr ⟨?_, hn⟩
  intro hmem
  rw [← contains_iff_mem] at hmem
  simp [hmem] at hc

theorem extendApply_invariants (t : BlockTree) (b : Block)
    (hw : wellFormed t = true) (hn : (allHashes t).Nodup) :
    wellFormed (extendApply t b) = true ∧
      (allHashes (extendApply t b)).Nodup := by
  unfold extendApply extend
  cases hc : contains b t with
  | true => simpa using ⟨hw, hn⟩
  | false =>
    simp only [Bool.false_eq_true, if_false]
    cases hat : attach_block b t with
    | none => simpa using ⟨hw, hn⟩
    | some t' =>
      have hap := attach_block_appendLeaf t b t' hat
      exact ⟨wellFormed_appendLeaf hap hw, nodup_of_attach hat hc hn⟩

theorem extendApply_shape (t : BlockTree) (b : Block) :
    extendApply t b = t ∨ AppendLeaf b t (extendApply t b) := by
  unfold extendApply extend
  cases hc : contains b t with
  | true => simp
  | false =>
    simp only [Bool.false_eq_true, if_false]
    cases hat : attach_block b t with
    | none => simp
    | some t' =>
      right
      simpa using attach_block_appendLeaf t b t' hat

/-! ### Chain extraction lemmas -/

theorem gcwtrL_cases (tip : Nat) (cs : List BlockTree)
    (ih : ∀ c ∈ cs,
      ((get_chain_with_tip_reverse tip c = none) ↔ contains_hash tip c = false)
      ∧ ∀ l, get_chain_with_tip_reverse tip c = some l →
          IsRootPath c l.reverse ∧ ∃ x, l.head? = some x ∧ x.block_hash = tip) :
    ((get_chain_with_tip_reverseL tip cs = none) ↔
      contains_hashL tip cs = false)
    ∧ ∀ l, get_chain_with_tip_reverseL tip cs = some l →
        (∃ c ∈ cs, IsRootPath c l.reverse) ∧
          ∃ x, l.head? = some x ∧ x.block_hash = tip := by
  induction cs with
  | nil => simp [get_chain_with_tip_reverseL, contains_hashL]
  | cons c rest ihl =>
    obtain ⟨ih1, ih2⟩ := ih c (by simp)
    obtain ⟨ihr1, ihr2⟩ := ihl (fun x hx => ih x (by simp [hx]))
    constructor
    · simp only [get_chain_with_tip_reverseL, contains_hashL]
      cases hc : get_chain_with_tip_reverse tip c with
      | some l =>
        have hch : contains_hash tip c = true := by
          by_contra hfalse
          have := ih1.mpr (by simpa using hfalse)
          simp [this] at hc
        simp [hch]
      | none =>
        have hch : contains_hash tip c = false := ih1.mp hc
        simp [hch, ihr1]
    · intro l hl
      simp only [get_chain_with_tip_reverseL] at hl
      cases hc : get_chain_with_tip_reverse tip c with
      | some l0 =>
        rw [hc] at hl
        obtain ⟨hpath, hx⟩ := ih2 l0 hc
        cases hl
        exact ⟨⟨c, by simp, hpath⟩, hx⟩
      | none =>
        rw [hc] at hl
        obtain ⟨⟨c', hc', hpath⟩, hx⟩ := ihr2 l hl
        exact ⟨⟨c', by simp [hc'], hpath⟩, hx⟩

theorem gcwtr_cases (t : BlockTree) (tip : Nat) :
    ((get_chain_with_tip_reverse tip t = none) ↔ contains_hash tip t = false)
    ∧ ∀ l, get_chain_with_tip_reverse tip t = some l →
        IsRootPath t l.reverse ∧ ∃ x, l.head? = some x ∧ x.block_hash = tip := by
  induction t using blockTree_ind with
  | h r cs ih =>
    obtain ⟨hl1, hl2⟩ := gcwtrL_cases tip cs ih
    by_cases hr : r.block_hash = tip
    · constructor
      · simp [get_chain_with_tip_reverse, contains_hash, hr]
      · intro l hsome
        rw [show get_chain_with_tip_reverse tip (.mk r cs) =
            some [r] from by simp [get_chain_with_tip_reverse, hr]] at hsome
        cases hsome
        exact ⟨by simpa using IsRootPath.root r cs, r, rfl, hr⟩
    · have hne : (r.block_hash == tip) = false := by simpa using hr
      constructor
      · simp only [get_chain_with_tip_reverse, hne, Bool.false_eq_true,
          if_false, contains_hash, Bool.false_or]
        cases hcs : get_chain_with_tip_reverseL tip cs with
        | some chain => simp [hl1.symm, hcs]
        | none => simp [hl1.mp hcs, hcs]
      · intro l hsome
        simp only [get_chain_with_tip_reverse, hne, Bool.false_eq_true,
          if_false] at hsome
        cases hcs : get_chain_with_tip_reverseL tip cs with
        | none => rw [hcs] at hsome; exact absurd hsome (by simp)
        | some chain =>
          rw [hcs] at hsome
          cases hsome
          obtain ⟨⟨c, hc, hpath⟩, x, hx, hxtip⟩ := hl2 chain hcs
          refine ⟨?_, x, ?_, hxtip⟩
          · rw [List.reverse_append]
            simpa using IsRootPath.step r cs c chain.reverse hc hpath
          · have hchain : chain ≠ [] := by
              intro hnil
              rw [hnil] at hx
              simp at hx
            rw [List.head?_append_of_ne_nil _ hchain]
            exact hx

/-! ### Blockchains and depth lemmas -/

theorem blockchains_ne_nil (t : BlockTree) : blockchains t ≠ [] := by
  induction t using blockTree_ind with
  | h r cs ih =>
    cases cs with
    | nil => simp [blockchains]
    | cons c rest =>
      have h1 := ih c (by simp)
      simp only [blockchains, blockchainsL]
      intro hcontra
      rw [List.append_eq_nil] at hcontra
      exact h1 (by simpa using hcontra.1)

theorem chain_tip_wrap (r : Block) (bc : BlockChain) :
    chain_tip ⟨r, into_chain bc⟩ = chain_tip bc := by
  simp only [chain_tip, into_chain]
  cases h : bc.successors with
  | nil => simp
  | cons x xs =>
    cases hgl : (x :: xs).getLast? with
    | none => simp at hgl
    | some y => simp [hgl]

theorem blockchainsL_tips (r : Block) (cs : List BlockTree)
    (ih : ∀ c ∈ cs, (blockchains c).map chain_tip = leaves c) :
    (blockchainsL r cs).map chain_tip = leavesL cs := by
  induction cs with
  | nil => rfl
  | cons c rest ihl =>
    simp only [blockchainsL, leavesL, List.map_append, List.map_map]
    rw [ihl (fun x hx => ih x (by simp [hx]))]
    congr 1
    rw [← ih c (by simp)]
    simp [Function.comp, chain_tip_wrap]

theorem blockchains_tips (t : BlockTree) :
    (blockchains t).map chain_tip = leaves t := by
  induction t using blockTree_ind with
  | h r cs ih =>
    cases cs with
    | nil => simp [blockchains, leaves, chain_tip]
    | cons c rest =>
      simp only [blockchains, leaves]
      exact blockchainsL_tips r (c :: rest) ih

theorem blockchainsL_mem (r : Block) (cs : List BlockTree) (c0 : BlockChain)
    (h : c0 ∈ blockchainsL r cs) :
    ∃ c ∈ cs, ∃ bc ∈ blockchains c, c0 = ⟨r, into_chain bc⟩ := by
  induction cs with
  | nil => simp [blockchainsL] at h
  | cons c rest ihl =>
    simp only [blockchainsL, List.mem_append, List.mem_map] at h
    cases h with
    | inl h1 =>
      obtain ⟨bc, hbc, heq⟩ := h1
      exact ⟨c, by simp, bc, hbc, heq.symm⟩
    | inr h2 =>
      obtain ⟨c', hc', bc, hbc, heq⟩ := ihl h2
      exact ⟨c', by simp [hc'], bc, hbc, heq⟩

theorem blockchains_isLeafPath (t : BlockTree) :
    ∀ c0 ∈ blockchains t, IsLeafPath t (into_chain c0) := by
  induction t using blockTree_ind with
  | h r cs ih =>
    intro c0 hc0
    cases cs with
    | nil =>
      simp only [blockchains, List.mem_singleton] at hc0
      subst hc0
      exact IsLeafPath.leaf r
    | cons c rest =>
      rw [show blockchains (.mk r (c :: rest)) = blockchainsL r (c :: rest)
        from rfl] at hc0
      obtain ⟨c1, hc1, bc, hbc, rfl⟩ := blockchainsL_mem r (c :: rest) c0 hc0
      have hp := ih c1 hc1 bc hbc
      exact IsLeafPath.step r (c :: rest) c1 (into_chain bc) hc1 hp

theorem listMax_append (l m : List Nat) :
    listMax (l ++ m) = max (listMax l) (listMax m) := by
  induction l with
  | nil => simp [listMax]
  | cons n ns ih => simp [listMax, ih, Nat.max_assoc]

theorem listMax_map_add_one (l : List Nat) (h : l ≠ []) :
    listMax (l.map (· + 1)) = listMax l + 1 := by
  induction l with
  | nil => exact absurd rfl h
  | cons n ns ih =>
    cases ns with
    | nil => simp [listMax]
    | cons m ms =>
      have := ih (by simp)
      simp only [List.map_cons, listMax] at this ⊢
      omega

theorem depthL_blockchainsL (r : Block) (cs : List BlockTree)
    (ih : ∀ c ∈ cs, depth c =
      listMax ((blockchains c).map (fun c0 => (into_chain c0).length - 1))) :
    depthL cs = listMax ((blockchainsL r cs).map
      (fun c0 => (into_chain c0).length - 1)) := by
  induction cs with
  | nil => rfl
  | cons c rest ihl =>
    simp only [depthL, blockchainsL, List.map_append, listMax_append,
      List.map_map]
    rw [ihl (fun x hx => ih x (by simp [hx]))]
    congr 1
    have hmapeq : (blockchains c).map
        ((fun c0 => (into_chain c0).length - 1) ∘ (fun bc => ⟨r, into_chain bc⟩))
        = (blockchains c).map
          ((· + 1) ∘ (fun bc => (into_chain bc).length - 1)) := by
      apply List.map_congr_left
      intro bc _
      simp [into_chain, Function.comp]
    rw [hmapeq, ← List.map_map, listMax_map_add_one, ← ih c (by simp)]
    · omega
    · simpa using blockchains_ne_nil c

theorem depth_blockchains (t : BlockTree) :
    depth t = listMax ((blockchains t).map
      (fun c0 => (into_chain c0).length - 1)) := by
  induction t using blockTree_ind with
  | h r cs ih =>
    cases cs with
    | nil => simp [depth, blockchains, into_chain, listMax]
    | cons c rest =>
      simp only [depth, blockchains]
      exact depthL_blockchainsL r (c :: rest) ih

/-! ### Main chain lemmas -/

theorem pick_longest_mem (l : List (List Block)) (h : l ≠ []) :
    pick_longest l ∈ l := by
  induction l with
  | nil => exact absurd rfl h
  | cons c cs ih =>
    simp only [pick_longest]
    by_cases hcs : cs = []
    · subst hcs; simp [pick_longest]
    · have hmem := ih hcs
      split
      · exact List.mem_cons_of_mem c hmem
      · exact List.mem_cons_self c cs

theorem get_main_chain_length_pos (u : UnstableBlocks) :
    1 ≤ (get_main_chain u).length := by
  unfold get_main_chain
  have h1 := blockchains_ne_nil u.blocks
  have h2 : (blockchains u.blocks).map into_chain ≠ [] := by
    simpa using h1
  have h3 := pick_longest_mem _ h2
  rw [List.mem_map] at h3
  obtain ⟨bc, _, heq⟩ := h3
  rw [← heq]
  simp [into_chain]

/-! ### Ingestion loop lemmas -/

theorem ingest_loop_result (env : IngestEnv) (prev : Nat × Option Nat) :
    ∀ (f : Nat) (s : State) (r : Bool) (s' : State),
      ingest_loop env prev f s = some (r, s') →
      r = has_state_changed prev s' := by
  intro f
  induction f with
  | zero =>
    intro s r s' h
    simp only [ingest_loop, Option.some.injEq, Prod.mk.injEq] at h
    obtain ⟨h1, h2⟩ := h
    subst h2
    exact h1.symm
  | succ f ih =>
    intro s r s' h
    simp only [ingest_loop] at h
    split at h
    · simp only [Option.some.injEq, Prod.mk.injEq] at h
      obtain ⟨h1, h2⟩ := h
      subst h2
      exact h1.symm
    · split at h
      · simp only [Option.some.injEq, Prod.mk.injEq] at h
        obtain ⟨h1, h2⟩ := h
        subst h2
        exact h1.symm
      · split at h
        · exact absurd h (by simp)
        · exact ih _ _ _ h

theorem ingest_result (env : IngestEnv) (fuel : Nat) (s : State) (r : Bool)
    (s' : State)
    (h : ingest_stable_blocks_into_utxoset env fuel s = some (r, s')) :
    r = has_state_changed (s.utxos.next_height, s.utxos.ingesting_block) s' := by
  simp only [ingest_stable_blocks_into_utxoset] at h
  split at h
  · exact ingest_loop_result env _ fuel _ r s' h
  · simp only [Option.some.injEq, Prod.mk.injEq] at h
    obtain ⟨h1, h2⟩ := h
    subst h2
    exact h1.symm
  · split at h
    · exact absurd h (by simp)
    · exact ingest_loop_result env _ fuel _ r s' h

/-! ### Balance map lemmas -/

theorem getBal_updateBalance_same (m : List (Nat × Nat)) (a amt : Nat) :
    getBal (updateBalance m a amt) a =
      some (match getBal m a with
            | none => amt
            | some v => (v + amt) % 18446744073709551616) := by
  induction m with
  | nil => simp [updateBalance, getBal]
  | cons p rest ih =>
    obtain ⟨k, v⟩ := p
    by_cases hk : k = a
    · subst hk
      simp [updateBalance, getBal]
    · simp [updateBalance, getBal, hk, ih]

theorem getBal_updateBalance_other (m : List (Nat × Nat)) (a b amt : Nat)
    (hne : b ≠ a) : getBal (updateBalance m a amt) b = getBal m b := by
  induction m with
  | nil => simp [updateBalance, getBal, Ne.symm hne]
  | cons p rest ih =>
    obtain ⟨k, v⟩ := p
    by_cases hk : k = a
    · subst hk
      simp [updateBalance, getBal, Ne.symm hne]
    · by_cases hkb : k = b
      · subst hkb
        simp [updateBalance, getBal, hk]
      · simp [updateBalance, getBal, hk, hkb, ih]

theorem build_balances_aux (parse_address : String → Option Nat)
    (lines : List (List String)) :
    ∀ (m : List (Nat × Nat)) (a : Nat),
      (∀ p ∈ lines, 6 ≤ p.length ∧ (parseU64 (p.getD 3 "")).isSome) →
      (getBal m a).getD 0 + sumFor parse_address lines a
          < 18446744073709551616 →
      ∃ m', lines.foldl (fun acc parts => acc.bind
            fun mm => processLine parse_address mm parts) (some m) = some m' ∧
        (getBal m' a).getD 0
            = (getBal m a).getD 0 + sumFor parse_address lines a ∧
        ((getBal m' a).isSome ↔
          ((getBal m a).isSome ∨ sumFor parse_address lines a ≠ 0)) := by
  induction lines with
  | nil =>
    intro m a hv hover
    exact ⟨m, rfl, by simp [sumFor], by simp [sumFor]⟩
  | cons p rest ih =>
    intro m a hv hover
    obtain ⟨hlen, hsome⟩ := hv p (by simp)
    obtain ⟨amt, hamt⟩ := Option.isSome_iff_exists.mp hsome
    have h3lt : 3 < p.length := by omega
    have h5lt : 5 < p.length := by omega
    have hp3 : p[3]? = some (p.getD 3 "") := by
      rw [List.getD_eq_getElem?_getD, List.getElem?_eq_getElem h3lt]
      simp
    have hp5 : p[5]? = some (p.getD 5 "") := by
      rw [List.getD_eq_getElem?_getD, List.getElem?_eq_getElem h5lt]
      simp
    have hrow : rowAmount p = amt := by
      simp only [rowAmount]
      rw [hamt]
      rfl
    have hvrest : ∀ q ∈ rest, 6 ≤ q.length ∧ (parseU64 (q.getD 3 "")).isSome :=
      fun q hq => hv q (by simp [hq])
    rw [List.foldl_cons]
    cases hpa : parse_address (p.getD 5 "") with
    | none =>
      have hproc : processLine parse_address m p = some m := by
        simp only [processLine, hp3, hamt, hp5, hpa]
      have hsum : sumFor parse_address (p :: rest) a
          = sumFor parse_address rest a := by
        simp only [sumFor]
        rw [hpa]
        simp
      rw [show (some m).bind (fun mm => processLine parse_address mm p)
        = some m from by rw [Option.some_bind, hproc]]
      rw [hsum] at hover ⊢
      exact ih m a hvrest hover
    | some b =>
      by_cases hb : b = a
      · rw [hb] at hpa
        have hsum : sumFor parse_address (p :: rest) a
            = amt + sumFor parse_address rest a := by
          simp only [sumFor]
          rw [hpa]
          simp [hrow]
        by_cases hz : amt = 0
        · subst hz
          have hproc : processLine parse_address m p = some m := by
            simp only [processLine, hp3, hamt, hp5, hpa]
            simp
          rw [show (some m).bind (fun mm => processLine parse_address mm p)
            = some m from by rw [Option.some_bind, hproc]]
          have hsum0 : sumFor parse_address (p :: rest) a
              = sumFor parse_address rest a := by
            rw [hsum]
            simp
          rw [hsum0] at hover ⊢
          exact ih m a hvrest hover
        · have hproc : processLine parse_address m p
              = some (updateBalance m a amt) := by
            simp only [processLine, hp3, hamt, hp5, hpa]
            simp [hz]
          rw [show (some m).bind (fun mm => processLine parse_address mm p)
            = some (updateBalance m a amt) from by rw [Option.some_bind, hproc]]
          have hm1 : (getBal (updateBalance m a amt) a).getD 0
              = (getBal m a).getD 0 + amt := by
            rw [getBal_updateBalance_same]
            cases hgb : getBal m a with
            | none => simp
            | some v =>
              rw [hsum, hgb] at hover
              simp only [Option.getD_some] at hover ⊢
              rw [Nat.mod_eq_of_lt (by omega)]
          have hm1some : (getBal (updateBalance m a amt) a).isSome = true := by
            rw [getBal_updateBalance_same]
            rfl
          have hover' : (getBal (updateBalance m a amt) a).getD 0
              + sumFor parse_address rest a < 18446744073709551616 := by
            rw [hm1]
            rw [hsum] at hover
            omega
          obtain ⟨m', hfold, hsum', hsome'⟩ :=
            ih (updateBalance m a amt) a hvrest hover'
          refine ⟨m', hfold, ?_, ?_⟩
          · rw [hsum', hm1, hsum]
            omega
          · rw [hsum]
            constructor
            · intro _
              right
              omega
            · intro _
              exact hsome'.mpr (Or.inl hm1some)
      · have hproc : processLine parse_address m p
            = some (if amt ≠ 0 then updateBalance m b amt else m) := by
          simp only [processLine, hp3, hamt, hp5, hpa]
          split <;> rfl
        have hsum : sumFor parse_address (p :: rest) a
            = sumFor parse_address rest a := by
          simp only [sumFor]
          rw [hpa]
          simp [hb]
        have hbal : getBal (if amt ≠ 0 then updateBalance m b amt else m) a
            = getBal m a := by
          split
          · exact getBal_updateBalance_other m b a amt (fun h => hb h.symm)
          · rfl
        rw [show (some m).bind (fun mm => processLine parse_address mm p)
          = some (if amt ≠ 0 then updateBalance m b amt else m) from by
            rw [Option.some_bind, hproc]]
        rw [hsum] at hover ⊢
        obtain ⟨m', hfold, hsum', hsome'⟩ :=
          ih (if amt ≠ 0 then updateBalance m b amt else m) a hvrest
            (by rw [hbal]; exact hover)
        exact ⟨m', hfold, by rw [hsum', hbal], by rw [hsome', hbal]⟩

/-! ## Claim theorems -/

/-- C1: for every `State` (and in particular every `BlockTree` inside it),
decoding the serialized encoding yields a value structurally equal to the
original; children lists are encoded in order, so the sibling insertion order
of every node of the block tree is preserved by the round trip. -/
theorem c1_serialize_roundtrip :
    (∀ s : State, deserializeState (serializeState s) = some (s, []))
    ∧ ∀ t : BlockTree, deserializeBlockTree (serializeTree t) = some (t, []) := by
  constructor
  · intro s
    simpa using deserializeState_roundtrip s []
  · intro t
    simpa using deserializeBlockTree_roundtrip t []

/-- C2: whenever `ingest_stable_blocks_into_utxoset` returns (on any of its
return paths: paused mid-ingestion, finished continuation, or loop exhausted,
and for every behaviour of its collaborators), the returned boolean is `true`
exactly when the call changed the pair `(next_height, ingesting_block)`. -/
theorem c2_ingest_returns_changed (env : IngestEnv) (fuel : Nat) (s : State)
    (r : Bool) (s' : State)
    (h : ingest_stable_blocks_into_utxoset env fuel s = some (r, s')) :
    r = true ↔ (s.utxos.next_height, s.utxos.ingesting_block)
      ≠ (s'.utxos.next_height, s'.utxos.ingesting_block) := by
  rw [ingest_result env fuel s r s' h]
  simp only [has_state_changed, decide_eq_true_eq, ne_eq, Prod.mk.injEq,
    not_and]

/-- Witness for C2 at a concrete environment, fuel and state. -/
theorem c2_ingest_returns_changed_witness :
    (false = true ↔ (stateW.utxos.next_height, stateW.utxos.ingesting_block)
      ≠ (stateW.utxos.next_height, stateW.utxos.ingesting_block)) :=
  c2_ingest_returns_changed envW 1 stateW false stateW rfl

/-- C3: `main_chain_height state` equals `stable_height state` plus the
length of the unstable main chain minus one, whenever the `u32` arithmetic
does not overflow (which holds for every reachable state). -/
theorem c3_main_chain_height (s : State)
    (hov : (get_main_chain s.unstable_blocks).length + s.utxos.next_height
      < U32) :
    main_chain_height s
      = stable_height s + (get_main_chain s.unstable_blocks).length - 1 := by
  have hpos := get_main_chain_length_pos s.unstable_blocks
  unfold main_chain_height stable_height
  set L := (get_main_chain s.unstable_blocks).length with hLdef
  set n := s.utxos.next_height with hndef
  have hL : L % U32 = L := Nat.mod_eq_of_lt (by omega)
  rw [hL]
  have h2 : (L + n) % U32 = L + n := Nat.mod_eq_of_lt hov
  rw [h2]
  have h3 : L + n + (U32 - 1) = (n + L - 1) + U32 := by
    have : 0 < U32 := by unfold U32; omega
    omega
  rw [h3, Nat.add_mod_right]
  have h4 : n + L - 1 < U32 := by omega
  rw [Nat.mod_eq_of_lt h4]

/-- Witness for C3 at a concrete state with a two-block main chain at stable
height five. -/
theorem c3_main_chain_height_witness :
    ((get_main_chain stateW.unstable_blocks).length
        + stateW.utxos.next_height < U32)
    ∧ main_chain_height stateW
        = stable_height stateW
          + (get_main_chain stateW.unstable_blocks).length - 1 :=
  ⟨by decide, c3_main_chain_height stateW (by decide)⟩

/-- C4: a tree built from a single root by any sequence of `extend` calls is
parent-linked (every non-root node's `prev_blockhash` is its parent's hash),
has pairwise distinct node hashes, and every tree-modifying `extend` appends
the new block as the LAST child of its parent, so sibling order is insertion
order. -/
theorem c4_extend_invariants (root : Block) (blocks : List Block) :
    wellFormed (blocks.foldl extendApply (BlockTree.new root)) = true
    ∧ (allHashes (blocks.foldl extendApply (BlockTree.new root))).Nodup
    ∧ ∀ (t : BlockTree) (b : Block),
        extendApply t b = t ∨ AppendLeaf b t (extendApply t b) := by
  have key : ∀ (bs : List Block) (t : BlockTree),
      wellFormed t = true → (allHashes t).Nodup →
      wellFormed (bs.foldl extendApply t) = true ∧
        (allHashes (bs.foldl extendApply t)).Nodup := by
    intro bs
    induction bs with
    | nil => intro t hw hn; exact ⟨hw, hn⟩
    | cons b rest ih =>
      intro t hw hn
      obtain ⟨hw', hn'⟩ := extendApply_invariants t b hw hn
      exact ih (extendApply t b) hw' hn'
  have hbw : wellFormed (BlockTree.new root) = true := by
    simp [BlockTree.new, wellFormed, wellFormedL]
  have hbn : (allHashes (BlockTree.new root)).Nodup := by
    simp [BlockTree.new, allHashes, allHashesL]
  obtain ⟨h1, h2⟩ := key blocks (BlockTree.new root) hbw hbn
  exact ⟨h1, h2, extendApply_shape⟩

/-- C5: `extend` returns `Err(BlockDoesNotExtendTree(b))`, with `b` the
argument block itself, exactly when no node of the tree has the block's hash
and no node's hash equals the block's `prev_blockhash`; in all other cases
it returns Ok. -/
theorem c5_extend_error (t : BlockTree) (b : Block) :
    (extend t b = .error ⟨b⟩ ↔
      (contains b t = false ∧ contains_hash b.header.prev_blockhash t = false))
    ∧ ((contains b t = true ∨ contains_hash b.header.prev_blockhash t = true)
        → ∃ t', extend t b = .ok t') := by
  have hiso := attach_block_isSome t b
  constructor
  · constructor
    · intro herr
      by_cases hc : contains b t
      · unfold extend at herr
        rw [if_pos hc] at herr
        exact absurd herr (by simp)
      · refine ⟨by simpa using hc, ?_⟩
        rw [← hiso]
        cases hat : attach_block b t with
        | some t' =>
          unfold extend at herr
          rw [if_neg hc, hat] at herr
          exact absurd herr (by simp)
        | none => simp [hat]
    · rintro ⟨hc, hch⟩
      unfold extend
      rw [if_neg (by simp [hc])]
      have hat : attach_block b t = none := by
        rw [← Option.not_isSome_iff_eq_none, hiso]
        simp [hch]
      rw [hat]
  · intro hok
    unfold extend
    cases hok with
    | inl hc => exact ⟨t, by rw [if_pos (by simp [hc])]⟩
    | inr hch =>
      by_cases hc : contains b t
      · exact ⟨t, by rw [if_pos hc]⟩
      · have hs : (attach_block b t).isSome := by rw [hiso]; exact hch
        obtain ⟨t', ht'⟩ := Option.isSome_iff_exists.mp hs
        exact ⟨t', by rw [if_neg hc, ht']⟩

/-- C6: calling `extend` twice with the same block leaves the tree in the
same state as calling it once, and a call whose block hash is already in the
tree returns Ok without modifying the tree. -/
theorem c6_extend_idempotent (t : BlockTree) (b : Block) :
    extendApply (extendApply t b) b = extendApply t b
    ∧ (contains b t = true → extend t b = .ok t) := by
  constructor
  · by_cases hc : contains b t
    · have h1 : extend t b = .ok t := by unfold extend; rw [if_pos hc]
      simp [extendApply, h1]
    · cases hat : attach_block b t with
      | none =>
        have h1 : extend t b = .error ⟨b⟩ := by
          unfold extend; rw [if_neg hc, hat]
        simp [extendApply, h1]
      | some t' =>
        have h1 : extend t b = .ok t' := by unfold extend; rw [if_neg hc, hat]
        have h2 : contains b t' = true := contains_of_attach hat
        have h3 : extend t' b = .ok t' := by unfold extend; rw [if_pos h2]
        simp [extendApply, h1, h3]
  · intro hc
    unfold extend
    rw [if_pos hc]

/-- C7: `get_chain_with_tip` returns a chain exactly when some node of the
tree has the requested hash, in which case the chain is a path descending
from the tree root whose last block has that hash. -/
theorem c7_get_chain_with_tip (t : BlockTree) (h : Nat) :
    ((get_chain_with_tip t h).isSome ↔ contains_hash h t = true)
    ∧ ∀ c, get_chain_with_tip t h = some c →
        IsRootPath t (c.first :: c.successors)
        ∧ ∃ b, (c.first :: c.successors).getLast? = some b
            ∧ b.block_hash = h := by
  obtain ⟨h1, h2⟩ := gcwtr_cases t h
  constructor
  · constructor
    · intro hs
      by_contra hfalse
      have hnone := h1.mpr (by simpa using hfalse)
      rw [show get_chain_with_tip t h = none from by
        simp [get_chain_with_tip, hnone]] at hs
      exact absurd hs (by simp)
    · intro hch
      cases hg : get_chain_with_tip_reverse h t with
      | none =>
        have hcontra := h1.mp hg
        rw [hcontra] at hch
        exact absurd hch (by simp)
      | some l =>
        obtain ⟨hpath, x, hx, hxh⟩ := h2 l hg
        have hne : l ≠ [] := by
          intro hnil
          rw [hnil] at hx
          exact absurd hx (by simp)
        cases hgl : l.getLast? with
        | none =>
          rw [List.getLast?_eq_none_iff] at hgl
          exact absurd hgl hne
        | some first => simp [get_chain_with_tip, hg, hgl]
  · intro c hc
    cases hg : get_chain_with_tip_reverse h t with
    | none =>
      rw [show get_chain_with_tip t h = none from by
        simp [get_chain_with_tip, hg]] at hc
      exact absurd hc (by simp)
    | some l =>
      obtain ⟨hpath, x, hx, hxh⟩ := h2 l hg
      have hne : l ≠ [] := by
        intro hnil
        rw [hnil] at hx
        exact absurd hx (by simp)
      cases hgl : l.getLast? with
      | none =>
        rw [List.getLast?_eq_none_iff] at hgl
        exact absurd hgl hne
      | some first =>
        have hval : get_chain_with_tip t h
            = some ⟨first, l.dropLast.reverse⟩ := by
          simp [get_chain_with_tip, hg, hgl]
        rw [hval] at hc
        obtain rfl : c = ⟨first, l.dropLast.reverse⟩ := (Option.some.inj hc).symm
        have hfirst : l.getLast hne = first := by
          have hh := List.getLast?_eq_getLast l hne
          rw [hgl] at hh
          exact (Option.some.inj hh).symm
        have hsplit := List.dropLast_append_getLast hne
        rw [hfirst] at hsplit
        have hrev : l.reverse = first :: l.dropLast.reverse := by
          conv_lhs => rw [← hsplit]
          simp
        refine ⟨?_, x, ?_, hxh⟩
        · show IsRootPath t (first :: l.dropLast.reverse)
          rw [← hrev]
          exact hpath
        · show (first :: l.dropLast.reverse).getLast? = some x
          rw [← hrev, List.getLast?_reverse]
          exact hx

/-- C8: `blockchains` returns exactly one chain per leaf — the chains' tips
enumerate the leaves in DFS pre-order and every chain is a root-to-leaf
path — and `depth` is the maximum over the chains of the chain length minus
one. -/
theorem c8_blockchains_depth (t : BlockTree) :
    ((blockchains t).map chain_tip = leaves t)
    ∧ (∀ c ∈ blockchains t, IsLeafPath t (into_chain c))
    ∧ depth t = listMax ((blockchains t).map
        (fun c => (into_chain c).length - 1)) :=
  ⟨blockchains_tips t, blockchains_isLeafPath t, depth_blockchains t⟩

/-- C9 counterexample: on a well-formed input whose per-address total
overflows `u64` (two rows of 2^63 for the same address), the release-mode
wrapping addition of `*curr += amount` stores 0, not the sum 2^64: the map
does not send the address to the sum of its amounts. -/
theorem c9_counterexample :
    (∀ p ∈ linesOv, 6 ≤ p.length ∧ (parseU64 (p.getD 3 "")).isSome)
    ∧ build_balances parseAddrW linesOv = some [(10, 0)]
    ∧ sumFor parseAddrW linesOv 10 = 18446744073709551616 := by
  refine ⟨by decide, by decide, by decide⟩

/-- C9 (amended): for input in which every line has at least six fields and
field 3 parses as a `u64`, and whose per-address total stays below 2^64 (no
`u64` overflow — true of any genuine UTXO dump, total satoshis being far
below 2^64), the balances map sends every address to the sum of the amounts
of the rows that parse to it, and has no entry for an address whose rows all
have amount 0 — in particular none for addresses no row parses to. -/
theorem c9_build_balances (parse_address : String → Option Nat)
    (lines : List (List String)) (a : Nat)
    (hv : ∀ p ∈ lines, 6 ≤ p.length ∧ (parseU64 (p.getD 3 "")).isSome)
    (hov : sumFor parse_address lines a < 18446744073709551616) :
    ∃ m, build_balances parse_address lines = some m ∧
      getBal m a = (if sumFor parse_address lines a = 0 then none
        else some (sumFor parse_address lines a)) := by
  obtain ⟨m', hfold, hsum, hsome⟩ :=
    build_balances_aux parse_address lines [] a hv (by simpa [getBal] using hov)
  refine ⟨m', hfold, ?_⟩
  simp only [getBal, Option.getD_none, Option.isSome_none, Bool.false_eq_true,
    false_or, Nat.zero_add] at hsum hsome
  by_cases hz : sumFor parse_address lines a = 0
  · rw [if_pos hz]
    rw [hz] at hsome
    have hns : ¬(getBal m' a).isSome := by simp [hsome]
    exact Option.not_isSome_iff_eq_none.mp hns
  · rw [if_neg hz]
    have hs : (getBal m' a).isSome := hsome.mpr hz
    obtain ⟨v, hv'⟩ := Option.isSome_iff_exists.mp hs
    rw [hv'] at hsum ⊢
    simp only [Option.getD_some] at hsum
    rw [hsum]

/-- Witness for C9 (amended) on a concrete four-line input: address 10
("addrA") collects 40 + 2 = 42. -/
theorem c9_build_balances_witness :
    ∃ m, build_balances parseAddrW linesW = some m ∧
      getBal m 10 = (if sumFor parseAddrW linesW 10 = 0 then none
        else some (sumFor parseAddrW linesW 10)) :=
  c9_build_balances parseAddrW linesW 10 (by decide) (by decide)

/-- C10: the consumer is not total over malformed rows: a line with fewer
than six fields panics (here `none`) on the field-index expressions, a line
whose fourth field is not a decimal `u64` panics on the `unwrap`, while a
line whose address fails to parse is skipped gracefully. -/
theorem c10_process_line_panics :
    processLine parseAddrW [] ["t", "0", "h"] = none
    ∧ processLine parseAddrW [] ["t", "0", "h", "xyz", "x", "addrA"] = none
    ∧ processLine parseAddrW [] ["t", "0", "h", "7"] = none
    ∧ processLine parseAddrW [] ["t", "0", "h", "7", "x", "nonsense"]
        = some [] := by
  refine ⟨by decide, by decide, by decide, by decide⟩
